import Mathlib

/-!
Verification of the streaming selective XML extractor of ds-xml
(`src/main.go`).

The extractor `parseXML` walks the token stream produced by Go's
`encoding/xml` decoder (element open, element close, character data),
tracks nesting depth, buffers the span of the current parent element
through `xml.Encoder.EncodeToken`, and emits matched spans.

The embedding models:
  * the token stream as a `List Tok` (the values Go's `xml.Decoder.Token`
    yields: start elements carry the parsed attribute list, character
    data is the decoded text), together with an optional mid-stream
    tokenization error; the terminal event at exhausted input is derived
    from the delivered tokens, because the strict decoder returns
    `io.EOF` only when every element has been closed and otherwise turns
    the EOF into the syntax error `unexpected EOF`;
  * `xml.Encoder.EncodeToken` as `emitTok`, which serializes a token the
    way Go's printer does: attribute values re-quoted with double quotes
    and escaped, character data escaped with Go's escape table
    (`"` → `&#34;`, `'` → `&#39;`, `&` → `&amp;`, `<` → `&lt;`,
    `>` → `&gt;`, TAB → `&#x9;`, LF → `&#xA;`, CR → `&#xD;`);
  * `strings.TrimSpace` as `trimSpace` (Unicode white space,
    `unicode.IsSpace`);
  * the state variables of `parseXML` (`currentDepth`, `buffer`,
    `captureDepth`, `insideParent`, `matchFound`, `results`) as a
    `ParseState`, and the token `switch` as `stepToken`;
  * the chunked output of `main` (lines 110-148) as `chunkEntries`,
    `outputFileName` and `mainOutcome`;
  * a small executable tokenizer `decodeXml` for the XML subset needed to
    relate concrete source strings to their Go token streams (plain tags,
    single- or double-quoted attributes, the five named entities,
    self-closing tags).
-/

namespace DsXml

/-- An XML attribute as parsed by Go's decoder: a name and the decoded
value string. -/
structure Attr where
  name : String
  value : String
deriving DecidableEq, Repr

/-- The tokens of Go's `encoding/xml` decoder that `parseXML` inspects:
`xml.StartElement` (with its attribute list), `xml.EndElement`, and
`xml.CharData` (entity-decoded text). Other token kinds (comments,
processing instructions, directives) are ignored by `parseXML` and do
not change the nesting depth, so streams are modelled without them.
Element names carry the local name only — `parseXML` matches
`t.Name.Local`. -/
inductive Tok where
  | startElem (name : String) (attrs : List Attr)
  | endElem (name : String)
  | charData (text : String)
deriving DecidableEq, Repr

/-- Go's `xml` escape table (`escapeString`), applied by the encoder to
character data and attribute values. -/
def escapeChar (c : Char) : String :=
  if c = '"' then "&#34;"
  else if c.val = 39 then "&#39;"
  else if c = '&' then "&amp;"
  else if c = '<' then "&lt;"
  else if c = '>' then "&gt;"
  else if c = '\t' then "&#x9;"
  else if c = '\n' then "&#xA;"
  else if c = '\r' then "&#xD;"
  else String.singleton c

/-- Escape a string the way Go's `xml.Encoder` escapes character data and
attribute values. -/
def escapeText (s : String) : String :=
  String.join (s.data.map escapeChar)

/-- Serialization of one attribute by Go's `xml` printer: space, name,
`="`, escaped value, `"`. Double quotes always. -/
def emitAttr (a : Attr) : String :=
  " " ++ a.name ++ "=\"" ++ escapeText a.value ++ "\""

/-- Serialization of one token by Go's `xml.Encoder.EncodeToken`:
`<name attrs>`, `</name>`, or escaped character data. A start token for a
source self-closing tag is re-emitted as an open tag (the decoder hands the
encoder a `StartElement` plus a synthesized `EndElement`). -/
def emitTok : Tok → String
  | Tok.startElem n attrs => "<" ++ n ++ String.join (attrs.map emitAttr) ++ ">"
  | Tok.endElem n => "</" ++ n ++ ">"
  | Tok.charData s => escapeText s

/-- Serialization of a token sequence: each token in order through
`emitTok`. -/
def emitTokens : List Tok → String
  | [] => ""
  | t :: ts => emitTok t ++ emitTokens ts

/-- Go's `unicode.IsSpace`: the white space predicate used by
`strings.TrimSpace`. -/
def goIsSpace (c : Char) : Bool :=
  c = ' ' || c = '\t' || c = '\n' || c.val = 11 || c.val = 12 || c = '\r' ||
  c.val = 0x85 || c.val = 0xA0 || c.val = 0x1680 ||
  (0x2000 ≤ c.val && c.val ≤ 0x200A) || c.val = 0x2028 || c.val = 0x2029 ||
  c.val = 0x202F || c.val = 0x205F || c.val = 0x3000

/-- Go's `strings.TrimSpace`: drop leading and trailing white space code
points. -/
def trimSpace (s : String) : String :=
  String.mk (((s.data.dropWhile goIsSpace).reverse.dropWhile goIsSpace).reverse)

/-- The `contains` helper of `src/main.go` (lines 279-286): linear scan for
an exactly equal string. -/
def contains (slice : List String) (item : String) : Bool :=
  match slice with
  | [] => false
  | s :: rest => if s = item then true else contains rest item

/-- The mutable state of `parseXML` (lines 204-209): nesting depth, the
span buffer (the encoder's output accumulates here), the depth at which
the current capture began (`-1` when none), the two flags, and the
accumulated result fragments. -/
structure ParseState where
  currentDepth : Int
  buffer : String
  captureDepth : Int
  insideParent : Bool
  matchFound : Bool
  results : List String
deriving DecidableEq, Repr

/-- The state of `parseXML` before the token loop: depth 0, empty buffer,
`captureDepth = -1`, both flags false, no results. -/
def initState : ParseState :=
  { currentDepth := 0, buffer := "", captureDepth := -1,
    insideParent := false, matchFound := false, results := [] }

/-- One iteration of the token `switch` of `parseXML` (lines 220-273).

`StartElement`: depth increments; a tag whose local name equals
`parentNode` begins a capture (buffer reset to the re-emitted open tag,
`captureDepth` recorded, `matchFound` forced only when `refNode` is
empty); any other tag is appended to the buffer when inside a span.

`EndElement`: when inside a span the re-emitted close tag is appended
first; if the name equals `parentNode` and the depth equals
`captureDepth`, the span ends — the buffer is emitted iff `matchFound` —
and the span state is cleared. Depth decrements afterwards in all cases.

`CharData`: when inside a span, `matchFound` is set if `refNode` is
non-empty and the trimmed text occurs in `referenceIDs`; the (untrimmed)
text is appended to the buffer re-escaped. -/
def stepToken (referenceIDs : List String) (parentNode refNode : String)
    (st : ParseState) (t : Tok) : ParseState :=
  match t with
  | Tok.startElem name attrs =>
    if name = parentNode then
      { st with
        currentDepth := st.currentDepth + 1,
        insideParent := true,
        captureDepth := st.currentDepth + 1,
        buffer := emitTok (Tok.startElem name attrs),
        matchFound := if refNode = "" then true else st.matchFound }
    else if st.insideParent then
      { st with
        currentDepth := st.currentDepth + 1,
        buffer := st.buffer ++ emitTok (Tok.startElem name attrs) }
    else
      { st with currentDepth := st.currentDepth + 1 }
  | Tok.endElem name =>
    if st.insideParent then
      if name = parentNode ∧ st.currentDepth = st.captureDepth then
        { st with
          currentDepth := st.currentDepth - 1,
          buffer := "",
          insideParent := false,
          captureDepth := -1,
          matchFound := false,
          results :=
            if st.matchFound then st.results ++ [st.buffer ++ emitTok (Tok.endElem name)]
            else st.results }
      else
        { st with
          currentDepth := st.currentDepth - 1,
          buffer := st.buffer ++ emitTok (Tok.endElem name) }
    else
      { st with currentDepth := st.currentDepth - 1 }
  | Tok.charData s =>
    if st.insideParent then
      { st with
        matchFound :=
          if refNode ≠ "" ∧ st.captureDepth ≠ -1 ∧ contains referenceIDs (trimSpace s) = true
          then true else st.matchFound,
        buffer := st.buffer ++ emitTok (Tok.charData s) }
    else st

/-- The token loop of `parseXML`: fold `stepToken` over the stream. -/
def runTokens (referenceIDs : List String) (parentNode refNode : String) :
    List Tok → ParseState → ParseState
  | [], st => st
  | t :: ts, st =>
      runTokens referenceIDs parentNode refNode ts
        (stepToken referenceIDs parentNode refNode st t)

/-- The decoder's stack of open element names after consuming a token
list (`Decoder.Token` pushes on `StartElement` and pops the matching
name on `EndElement`). `none` marks a mismatched or unmatched close
tag; the strict decoder reports those as syntax errors instead of
delivering the close token, so a stream it actually handed to
`parseXML` never reaches that case. -/
def openStack (stack : List String) : List Tok → Option (List String)
  | [] => some stack
  | Tok.startElem n _ :: ts => openStack (n :: stack) ts
  | Tok.endElem n :: ts =>
      match stack with
      | [] => none
      | m :: rest => if m = n then openStack rest ts else none
  | Tok.charData _ :: ts => openStack stack ts

/-- `parseXML` (lines 196-277) over a decoded token stream. `rawErr`
models a mid-stream tokenization failure: `Decoder.Token` returned a
non-EOF error after delivering `toks`, and the call returns `nil, err`,
discarding everything accumulated. With `rawErr = none` the underlying
input is exhausted after `toks`; Go's strict decoder then returns
`io.EOF` — letting the loop break and the accumulated `results` be
returned — only when no element is still open, and otherwise converts
the EOF into the syntax error `unexpected EOF`, which travels through
the same `nil, err` path (the line number in Go's message is abstracted
away). The catch-all arm also covers `openStack = none`, a combination
the decoder never delivers with a clean end of input. -/
def parseXML (toks : List Tok) (rawErr : Option String)
    (referenceIDs : List String) (parentNode refNode : String) :
    Except String (List String) :=
  let final := runTokens referenceIDs parentNode refNode toks initState
  match rawErr with
  | some e => Except.error e
  | none =>
    match openStack [] toks with
    | some [] => Except.ok final.results
    | _ => Except.error "XML syntax error: unexpected EOF"

/-! ### Observers over token streams and states

Specification-side counters and predicates used to state the claims.
They replicate only the branch conditions of `stepToken`, never its
effects. -/

/-- The span-end condition of the `EndElement` branch: inside a span, the
closing local name equals `parentNode`, and the current depth equals the
recorded capture depth. -/
def spanEnds (parentNode : String) (st : ParseState) (t : Tok) : Bool :=
  match t with
  | Tok.endElem name =>
      if st.insideParent = true ∧ name = parentNode ∧ st.currentDepth = st.captureDepth
      then true else false
  | _ => false

/-- Number of span-end events (spans considered: matched or discarded)
while running a token list from a state. -/
def consideredCount (referenceIDs : List String) (parentNode refNode : String) :
    List Tok → ParseState → Nat
  | [], _ => 0
  | t :: ts, st =>
      (if spanEnds parentNode st t = true then 1 else 0)
      + consideredCount referenceIDs parentNode refNode ts
          (stepToken referenceIDs parentNode refNode st t)

/-- Number of element-open tokens with the given local name. -/
def countOpen (parentNode : String) : List Tok → Nat
  | [] => 0
  | Tok.startElem n _ :: ts => (if n = parentNode then 1 else 0) + countOpen parentNode ts
  | _ :: ts => countOpen parentNode ts

/-- Number of element-close tokens with the given local name. -/
def countClose (parentNode : String) : List Tok → Nat
  | [] => 0
  | Tok.endElem n :: ts => (if n = parentNode then 1 else 0) + countClose parentNode ts
  | _ :: ts => countClose parentNode ts

/-- Number of occurrences of a name in a stack of open element names. -/
def countName (parentNode : String) : List String → Nat
  | [] => 0
  | n :: rest => (if n = parentNode then 1 else 0) + countName parentNode rest

/-- Well-formedness of a token stream relative to a stack of currently
open element names: every close tag matches the most recent open tag and
the stream ends with all tags closed. This is the guarantee Go's decoder
enforces on the streams it hands `parseXML` up to a clean `io.EOF`. -/
def balancedAux (stack : List String) : List Tok → Bool
  | [] => stack.isEmpty
  | Tok.startElem n _ :: ts => balancedAux (n :: stack) ts
  | Tok.endElem n :: ts =>
      match stack with
      | [] => false
      | m :: rest => if m = n then balancedAux rest ts else false
  | Tok.charData _ :: ts => balancedAux stack ts

/-- No element named `parentNode` opens while another one is already open;
`k` is the number of currently open `parentNode` elements. -/
def noNestedAux (parentNode : String) : Nat → List Tok → Bool
  | _, [] => true
  | k, Tok.startElem n _ :: ts =>
      if n = parentNode then
        if k = 0 then noNestedAux parentNode 1 ts else false
      else noNestedAux parentNode k ts
  | k, Tok.endElem n :: ts =>
      if n = parentNode then noNestedAux parentNode (k - 1) ts
      else noNestedAux parentNode k ts
  | k, Tok.charData _ :: ts => noNestedAux parentNode k ts

/-- Net depth change of a token list: opens count `+1`, closes `-1`. -/
def netDepth : List Tok → Int
  | [] => 0
  | Tok.startElem _ _ :: ts => netDepth ts + 1
  | Tok.endElem _ :: ts => netDepth ts - 1
  | Tok.charData _ :: ts => netDepth ts

/-- No open tag with local name `parentNode` occurs in the list. -/
def noPnOpen (parentNode : String) (ts : List Tok) : Bool :=
  ts.all fun t =>
    match t with
    | Tok.startElem n _ => !(n = parentNode)
    | _ => true

/-- The run stays strictly inside one capture span: before every token —
and after the last one — the state is inside a span with a recorded
capture depth. -/
def inSpanThroughout (referenceIDs : List String) (parentNode refNode : String) :
    List Tok → ParseState → Bool
  | [], st => st.insideParent && decide (st.captureDepth ≠ -1)
  | t :: ts, st =>
      (st.insideParent && decide (st.captureDepth ≠ -1))
      && inSpanThroughout referenceIDs parentNode refNode ts
           (stepToken referenceIDs parentNode refNode st t)

/-! ### Chunked output (`main`, lines 110-148) -/

/-- The chunking loop of `main`: emit `entries[i:i+chunk]` slices in
order. Modelled on the suffix `l = entries[i:]`; the loop runs while the
suffix is nonempty. The `chunk = 0` guard makes the definition total; in
`main` the chunk size is forced positive whenever the loop is entered
(`chunk` is replaced by `totalEntries ≥ 1` when non-positive or too
large). -/
def chunkList (chunk : Nat) (l : List String) : List (List String) :=
  if l = [] ∨ chunk = 0 then []
  else l.take chunk :: chunkList chunk (l.drop chunk)
termination_by l.length
decreasing_by
  rename_i h
  simp only [not_or] at h
  have h1 : l ≠ [] := h.1
  have h2 : chunk ≠ 0 := h.2
  have h3 : 0 < l.length := List.length_pos.mpr h1
  simp only [List.length_drop]
  omega

/-- The chunk-size normalization and loop of `main` (lines 120-131): a
non-positive requested size, or one larger than the number of entries, is
replaced by the number of entries (one chunk holding everything). -/
def chunkEntries (matchingEntries : List String) (chunkSize : Int) : List (List String) :=
  let totalEntries : Int := matchingEntries.length
  let chunk : Int :=
    if chunkSize ≤ 0 ∨ chunkSize > totalEntries then totalEntries else chunkSize
  chunkList chunk.toNat matchingEntries

/-- Output file name for the chunk with 0-based index `k`
(`main`, line 138): `{parentNode}_{refNodeOrAll}_part-{k+1}.xml`. -/
def outputFileName (parentNode refNode : String) (k : Nat) : String :=
  parentNode ++ "_" ++ (if refNode = "" then "all" else refNode)
    ++ "_part-" ++ toString (k + 1) ++ ".xml"

/-- Caller-visible outcome of `main` after extraction: a tokenization
error aborts; zero fragments print "No matching entries found." and skip
all file creation; otherwise one file per chunk is written. -/
inductive Outcome where
  | parseError (msg : String)
  | noMatches
  | wroteFiles (files : List (String × List String))
deriving DecidableEq, Repr

/-- The post-extraction logic of `main` (lines 104-149), with file writes
abstracted to the returned list of (file name, fragments in the file). -/
def mainOutcome (parsed : Except String (List String))
    (parentNode refNode : String) (chunkSize : Int) : Outcome :=
  match parsed with
  | Except.error e => Outcome.parseError e
  | Except.ok matchingEntries =>
    if matchingEntries.length = 0 then Outcome.noMatches
    else
      Outcome.wroteFiles
        ((chunkEntries matchingEntries chunkSize).enum.map
          fun p => (outputFileName parentNode refNode p.1, p.2))

/-! ### A small executable tokenizer

`decodeXml` models Go's `xml.Decoder.Token` on the XML subset needed to
relate concrete source bytes to token streams: element tags with optional
attributes quoted with `"` or `'`, the five named entities in text and
attribute values, and self-closing tags (which the decoder reports as a
`StartElement` followed by a synthesized `EndElement`). Anything else
(processing instructions, comments, CDATA, numeric entities, `\r`
line-ending normalization) is out of the subset and yields `none`. -/

/-- Characters allowed in the modelled element and attribute names. -/
def isNameChar (c : Char) : Bool :=
  c.isAlpha || c.isDigit || c = '_' || c = '-' || c = '.'

/-- ASCII white space inside tags. -/
def isSpaceChar (c : Char) : Bool :=
  c = ' ' || c = '\t' || c = '\n' || c = '\r'

/-- Skip white space inside a tag. -/
def skipSpaces (cs : List Char) : List Char :=
  cs.dropWhile isSpaceChar

/-- Read a name: the longest prefix of name characters, and the rest. -/
def readName (cs : List Char) : String × List Char :=
  (String.mk (cs.takeWhile isNameChar), cs.dropWhile isNameChar)

/-- Decode one named entity, positioned after the `&`. -/
def readEntity (cs : List Char) : Option (Char × List Char) :=
  match cs with
  | 'a' :: 'm' :: 'p' :: ';' :: rest => some ('&', rest)
  | 'l' :: 't' :: ';' :: rest => some ('<', rest)
  | 'g' :: 't' :: ';' :: rest => some ('>', rest)
  | 'q' :: 'u' :: 'o' :: 't' :: ';' :: rest => some ('"', rest)
  | 'a' :: 'p' :: 'o' :: 's' :: ';' :: rest => some (Char.ofNat 39, rest)
  | _ => none

/-- Read an attribute value up to the closing quote `q`, decoding
entities. -/
def readAttrValue : Nat → Char → List Char → List Char → Option (String × List Char)
  | 0, _, _, _ => none
  | _ + 1, _, [], _ => none
  | fuel + 1, q, c :: rest, acc =>
      if c = q then some (String.mk acc.reverse, rest)
      else if c = '&' then
        match readEntity rest with
        | some (d, rest2) => readAttrValue fuel q rest2 (d :: acc)
        | none => none
      else if c = '<' then none
      else readAttrValue fuel q rest (c :: acc)

/-- Read the attribute list of an open tag, stopping before `>` or `/`. -/
def readAttrs : Nat → List Char → Option (List Attr × List Char)
  | 0, _ => none
  | fuel + 1, cs =>
    match skipSpaces cs with
    | [] => none
    | c :: rest =>
      if c = '>' || c = '/' then some ([], c :: rest)
      else
        match readName (c :: rest) with
        | (n, r1) =>
          if n = "" then none
          else
            match skipSpaces r1 with
            | '=' :: r2 =>
              match skipSpaces r2 with
              | q :: r3 =>
                if q = '"' || q.val = 39 then
                  match readAttrValue (r3.length + 1) q r3 [] with
                  | some (v, r4) =>
                    match readAttrs fuel r4 with
                    | some (attrs, r5) => some ({ name := n, value := v } :: attrs, r5)
                    | none => none
                  | none => none
                else none
              | [] => none
            | _ => none

/-- Read character data up to the next `<` or the end of input, decoding
entities. -/
def readText : Nat → List Char → List Char → Option (String × List Char)
  | 0, _, _ => none
  | _ + 1, [], acc => some (String.mk acc.reverse, [])
  | fuel + 1, c :: rest, acc =>
      if c = '<' then some (String.mk acc.reverse, c :: rest)
      else if c = '&' then
        match readEntity rest with
        | some (d, rest2) => readText fuel rest2 (d :: acc)
        | none => none
      else readText fuel rest (c :: acc)

/-- Tokenize the modelled XML subset. -/
def decodeToks : Nat → List Char → Option (List Tok)
  | 0, _ => none
  | _ + 1, [] => some []
  | fuel + 1, '<' :: cs =>
    (match cs with
     | '/' :: cs2 =>
       match readName cs2 with
       | (n, r1) =>
         if n = "" then none
         else
           match skipSpaces r1 with
           | '>' :: r2 =>
             match decodeToks fuel r2 with
             | some ts => some (Tok.endElem n :: ts)
             | none => none
           | _ => none
     | _ =>
       match readName cs with
       | (n, r1) =>
         if n = "" then none
         else
           match readAttrs (r1.length + 1) r1 with
           | some (attrs, r2) =>
             match r2 with
             | '>' :: r3 =>
               match decodeToks fuel r3 with
               | some ts => some (Tok.startElem n attrs :: ts)
               | none => none
             | '/' :: '>' :: r3 =>
               match decodeToks fuel r3 with
               | some ts => some (Tok.startElem n attrs :: Tok.endElem n :: ts)
               | none => none
             | _ => none
           | none => none)
  | fuel + 1, c :: cs =>
    match readText (cs.length + 2) (c :: cs) [] with
    | some (txt, rest) =>
      match decodeToks fuel rest with
      | some ts => some (Tok.charData txt :: ts)
      | none => none
    | none => none

/-- Tokenize a source string with Go's decoder, modelled on the subset
above. -/
def decodeXml (s : String) : Option (List Tok) :=
  decodeToks (s.length + 1) s.data

/-! ### Basic lemmas about the token walk -/

/-- Running a concatenation runs the parts in order. -/
theorem run_append (referenceIDs : List String) (parentNode refNode : String) :
    ∀ (a b : List Tok) (st : ParseState),
      runTokens referenceIDs parentNode refNode (a ++ b) st
        = runTokens referenceIDs parentNode refNode b
            (runTokens referenceIDs parentNode refNode a st)
  | [], _, _ => rfl
  | t :: a, b, st => by
      simp only [List.cons_append, runTokens]
      exact run_append referenceIDs parentNode refNode a b _

/-- One step changes the depth by the token's net depth contribution. -/
theorem stepToken_depth (referenceIDs : List String) (parentNode refNode : String)
    (st : ParseState) (t : Tok) :
    (stepToken referenceIDs parentNode refNode st t).currentDepth
      = st.currentDepth + netDepth [t] := by
  cases t with
  | startElem n a => simp only [stepToken, netDepth]; split_ifs <;> simp
  | endElem n => simp only [stepToken, netDepth]; split_ifs <;> simp <;> omega
  | charData s => simp only [stepToken, netDepth]; split_ifs <;> simp

/-- The depth after a run is the starting depth plus the net depth of the
consumed tokens. -/
theorem run_depth (referenceIDs : List String) (parentNode refNode : String) :
    ∀ (ts : List Tok) (st : ParseState),
      (runTokens referenceIDs parentNode refNode ts st).currentDepth
        = st.currentDepth + netDepth ts
  | [], st => by simp [runTokens, netDepth]
  | t :: ts, st => by
      rw [runTokens, run_depth referenceIDs parentNode refNode ts _,
        stepToken_depth]
      cases t <;> simp [netDepth] <;> ring

/-- Characterization of the span-end condition on a close tag. -/
theorem spanEnds_true_iff (parentNode : String) (st : ParseState) (n : String) :
    spanEnds parentNode st (Tok.endElem n) = true ↔
      (st.insideParent = true ∧ n = parentNode ∧ st.currentDepth = st.captureDepth) := by
  simp only [spanEnds]
  split_ifs with h
  · simp [h]
  · simp [h]

/-- The results change in a step exactly at a span end with the matched
flag set, by appending the buffer closed with the end tag. -/
theorem results_stepToken (referenceIDs : List String) (parentNode refNode : String)
    (st : ParseState) (t : Tok) :
    (stepToken referenceIDs parentNode refNode st t).results
      = if spanEnds parentNode st t = true ∧ st.matchFound = true
        then st.results ++ [st.buffer ++ emitTok t]
        else st.results := by
  cases t with
  | startElem n a =>
      simp only [stepToken, spanEnds]
      split_ifs <;> simp_all
  | endElem n =>
      by_cases hip : st.insideParent = true
      · by_cases hend : n = parentNode ∧ st.currentDepth = st.captureDepth
        · simp only [stepToken, spanEnds, hip, if_pos hend, if_true]
          by_cases hm : st.matchFound = true
          · simp [hm, hip, hend]
          · simp [hm, hip, hend]
        · simp only [stepToken, spanEnds, hip, if_true, if_neg hend]
          simp [hend, hip]
      · have h1 : spanEnds parentNode st (Tok.endElem n) = false := by
          show (if st.insideParent = true ∧ n = parentNode ∧ st.currentDepth = st.captureDepth
                then true else false) = false
          rw [if_neg (fun hc => hip hc.1)]
        rw [h1]
        simp [stepToken, hip]
  | charData s =>
      simp only [stepToken, spanEnds]
      split_ifs <;> simp_all

/-- A step without a span end leaves the results untouched. -/
theorem results_step_no_end (referenceIDs : List String) (parentNode refNode : String)
    (st : ParseState) (t : Tok) (h : spanEnds parentNode st t = false) :
    (stepToken referenceIDs parentNode refNode st t).results = st.results := by
  rw [results_stepToken]
  simp [h]

/-- If no span ends while running a token list, the results do not
change: trailing tokens of an unterminated span contribute nothing. -/
theorem considered_zero_results (referenceIDs : List String) (parentNode refNode : String) :
    ∀ (ts : List Tok) (st : ParseState),
      consideredCount referenceIDs parentNode refNode ts st = 0 →
      (runTokens referenceIDs parentNode refNode ts st).results = st.results
  | [], _, _ => rfl
  | t :: ts, st, h => by
      rw [consideredCount] at h
      have h1 : spanEnds parentNode st t = false := by
        by_contra hc
        simp only [Bool.not_eq_false] at hc
        simp [hc] at h
      have h2 : consideredCount referenceIDs parentNode refNode ts
          (stepToken referenceIDs parentNode refNode st t) = 0 := by
        simp [h1] at h; exact h
      rw [runTokens, considered_zero_results referenceIDs parentNode refNode ts _ h2,
        results_step_no_end referenceIDs parentNode refNode st t h1]

/-- Each emitted fragment comes from one considered span. -/
theorem emitted_le_considered (referenceIDs : List String) (parentNode refNode : String) :
    ∀ (ts : List Tok) (st : ParseState),
      (runTokens referenceIDs parentNode refNode ts st).results.length
        ≤ st.results.length + consideredCount referenceIDs parentNode refNode ts st
  | [], st => le_refl _
  | t :: ts, st => by
      have ih := emitted_le_considered referenceIDs parentNode refNode ts
        (stepToken referenceIDs parentNode refNode st t)
      have hstep : (stepToken referenceIDs parentNode refNode st t).results.length
          ≤ st.results.length + (if spanEnds parentNode st t = true then 1 else 0) := by
        rw [results_stepToken]
        split_ifs with h1 h2 <;> simp_all
      rw [runTokens, consideredCount]
      omega

/-- Results only grow during a run. -/
theorem results_mono (referenceIDs : List String) (parentNode refNode : String) :
    ∀ (ts : List Tok) (st : ParseState),
      ∃ ds, (runTokens referenceIDs parentNode refNode ts st).results
        = st.results ++ ds
  | [], st => ⟨[], by simp [runTokens]⟩
  | t :: ts, st => by
      obtain ⟨ds, hds⟩ := results_mono referenceIDs parentNode refNode ts
        (stepToken referenceIDs parentNode refNode st t)
      rw [runTokens, hds, results_stepToken]
      split_ifs with h
      · exact ⟨[st.buffer ++ emitTok t] ++ ds, by simp⟩
      · exact ⟨ds, rfl⟩

/-- Serialization distributes over concatenation. -/
theorem emitTokens_append :
    ∀ (a b : List Tok), emitTokens (a ++ b) = emitTokens a ++ emitTokens b
  | [], b => by simp [emitTokens, String.empty_append]
  | t :: a, b => by
      show emitTok t ++ emitTokens (a ++ b) = (emitTok t ++ emitTokens a) ++ emitTokens b
      rw [emitTokens_append a b, String.append_assoc]

/-- A run that stays inside a span starts inside a span. -/
theorem inSpan_head (referenceIDs : List String) (parentNode refNode : String)
    (ts : List Tok) (st : ParseState)
    (h : inSpanThroughout referenceIDs parentNode refNode ts st = true) :
    st.insideParent = true ∧ st.captureDepth ≠ -1 := by
  cases ts with
  | nil =>
      simp only [inSpanThroughout, Bool.and_eq_true, decide_eq_true_eq] at h
      exact h
  | cons t ts =>
      simp only [inSpanThroughout, Bool.and_eq_true, decide_eq_true_eq] at h
      exact h.1

/-- While the walk stays inside one capture span and no same-named open
tag occurs, the buffer accumulates exactly the canonical serialization of
the consumed tokens, and the results, capture depth and inside flag are
untouched. -/
theorem span_buffer (referenceIDs : List String) (parentNode refNode : String) :
    ∀ (ts : List Tok) (st : ParseState),
      noPnOpen parentNode ts = true →
      inSpanThroughout referenceIDs parentNode refNode ts st = true →
      (runTokens referenceIDs parentNode refNode ts st).buffer
          = st.buffer ++ emitTokens ts
      ∧ (runTokens referenceIDs parentNode refNode ts st).results = st.results
      ∧ (runTokens referenceIDs parentNode refNode ts st).captureDepth = st.captureDepth
      ∧ (runTokens referenceIDs parentNode refNode ts st).insideParent = true
  | [], st, _, h => by
      refine ⟨by simp [runTokens, emitTokens, String.append_empty], rfl, rfl, ?_⟩
      exact (inSpan_head referenceIDs parentNode refNode [] st h).1
  | t :: ts, st, hop, h => by
      simp only [inSpanThroughout, Bool.and_eq_true, decide_eq_true_eq] at h
      obtain ⟨⟨hip, _⟩, htail⟩ := h
      have hstep : (stepToken referenceIDs parentNode refNode st t).buffer
            = st.buffer ++ emitTok t
          ∧ (stepToken referenceIDs parentNode refNode st t).results = st.results
          ∧ (stepToken referenceIDs parentNode refNode st t).captureDepth = st.captureDepth := by
        cases t with
        | startElem n a =>
            have hn : ¬(n = parentNode) := by
              simp only [noPnOpen, List.all_cons, Bool.and_eq_true, Bool.not_eq_true',
                decide_eq_false_iff_not] at hop
              simpa using hop.1
            simp [stepToken, hn, hip]
        | endElem n =>
            have hnotend : ¬(n = parentNode ∧ st.currentDepth = st.captureDepth) := by
              intro hc
              have hinside := (inSpan_head referenceIDs parentNode refNode ts _ htail).1
              simp [stepToken, hip, hc] at hinside
            simp [stepToken, hip, hnotend]
        | charData s => simp [stepToken, hip]
      have hop2 : noPnOpen parentNode ts = true := by
        simp only [noPnOpen, List.all_cons, Bool.and_eq_true] at hop
        exact hop.2
      obtain ⟨ih1, ih2, ih3, ih4⟩ :=
        span_buffer referenceIDs parentNode refNode ts
          (stepToken referenceIDs parentNode refNode st t) hop2 htail
      refine ⟨?_, ?_, ?_, ?_⟩
      · rw [runTokens, ih1, hstep.1, emitTokens, String.append_assoc]
      · rw [runTokens, ih2, hstep.2.1]
      · rw [runTokens, ih3, hstep.2.2]
      · rw [runTokens]; exact ih4

/-- Inside a span with a non-empty `refNode`, the matched flag after a
run is set exactly when it was already set or some character-data token
seen on the way trims to a member of the reference list. -/
theorem matched_iff_aux (referenceIDs : List String) (parentNode refNode : String)
    (hrn : refNode ≠ "") :
    ∀ (ts : List Tok) (st : ParseState),
      inSpanThroughout referenceIDs parentNode refNode ts st = true →
      ((runTokens referenceIDs parentNode refNode ts st).matchFound = true ↔
        (st.matchFound = true ∨
          ∃ s, Tok.charData s ∈ ts ∧ contains referenceIDs (trimSpace s) = true))
  | [], st, _ => by simp [runTokens]
  | t :: ts, st, h => by
      simp only [inSpanThroughout, Bool.and_eq_true, decide_eq_true_eq] at h
      obtain ⟨⟨hip, hcd⟩, htail⟩ := h
      have ih := matched_iff_aux referenceIDs parentNode refNode hrn ts
        (stepToken referenceIDs parentNode refNode st t) htail
      rw [runTokens, ih]
      cases t with
      | startElem n a =>
          have hmf : (stepToken referenceIDs parentNode refNode st
              (Tok.startElem n a)).matchFound = st.matchFound := by
            simp [stepToken, hrn]
            split_ifs <;> rfl
          rw [hmf]
          constructor
          · rintro (hm | ⟨s, hs, hc⟩)
            · exact Or.inl hm
            · exact Or.inr ⟨s, List.mem_cons_of_mem _ hs, hc⟩
          · rintro (hm | ⟨s, hs, hc⟩)
            · exact Or.inl hm
            · rcases List.mem_cons.mp hs with heq | hs2
              · exact absurd heq (by simp)
              · exact Or.inr ⟨s, hs2, hc⟩
      | endElem n =>
          have hnotend : ¬(n = parentNode ∧ st.currentDepth = st.captureDepth) := by
            intro hc
            have hinside := (inSpan_head referenceIDs parentNode refNode ts _ htail).1
            simp [stepToken, hip, hc] at hinside
          have hmf : (stepToken referenceIDs parentNode refNode st
              (Tok.endElem n)).matchFound = st.matchFound := by
            simp [stepToken, hip, hnotend]
          rw [hmf]
          constructor
          · rintro (hm | ⟨s, hs, hc⟩)
            · exact Or.inl hm
            · exact Or.inr ⟨s, List.mem_cons_of_mem _ hs, hc⟩
          · rintro (hm | ⟨s, hs, hc⟩)
            · exact Or.inl hm
            · rcases List.mem_cons.mp hs with heq | hs2
              · exact absurd heq (by simp)
              · exact Or.inr ⟨s, hs2, hc⟩
      | charData s0 =>
          have hmf : (stepToken referenceIDs parentNode refNode st
              (Tok.charData s0)).matchFound
              = (if contains referenceIDs (trimSpace s0) = true then true
                 else st.matchFound) := by
            simp only [stepToken, hip, if_true]
            split_ifs with h1 h2 h2 <;> simp_all
          rw [hmf]
          by_cases hc0 : contains referenceIDs (trimSpace s0) = true
          · simp only [hc0, if_true]
            constructor
            · intro _
              exact Or.inr ⟨s0, List.mem_cons_self _ _, hc0⟩
            · intro _
              exact Or.inl trivial
          · simp only [hc0, if_false]
            constructor
            · rintro (hm | ⟨s, hs, hc⟩)
              · exact Or.inl hm
              · exact Or.inr ⟨s, List.mem_cons_of_mem _ hs, hc⟩
            · rintro (hm | ⟨s, hs, hc⟩)
              · exact Or.inl hm
              · rcases List.mem_cons.mp hs with heq | hs2
                · cases heq
                  exact absurd hc hc0
                · exact Or.inr ⟨s, hs2, hc⟩

/-! ### The counting invariant

Relates the parse state to the stack of currently open element names
that Go's decoder maintains for `parseXML`. -/

/-- Invariant of the token walk relative to the decoder's stack of open
element names (head is the innermost): the depth equals the stack size;
the inside flag holds exactly when a `parentNode` element is open; the
capture depth points at the first (only) open `parentNode`; an empty
`refNode` forces the matched flag inside a span; and at most one
`parentNode` element is open at a time. -/
def Inv (parentNode refNode : String) (stack : List String) (st : ParseState) : Prop :=
  st.currentDepth = (stack.length : Int)
  ∧ (st.insideParent = true ↔ parentNode ∈ stack)
  ∧ (∀ pre post, stack = pre ++ parentNode :: post → parentNode ∉ pre →
      st.captureDepth = (post.length : Int) + 1)
  ∧ ((refNode = "" ∧ st.insideParent = true) → st.matchFound = true)
  ∧ countName parentNode stack ≤ 1

/-- A name is absent from a stack iff it is counted zero times. -/
theorem countName_eq_zero (parentNode : String) :
    ∀ (l : List String), countName parentNode l = 0 ↔ parentNode ∉ l
  | [] => by simp [countName]
  | n :: rest => by
      simp only [countName, List.mem_cons]
      constructor
      · intro h
        have h1 : ¬(n = parentNode) := by
          intro hn; simp [hn] at h
        have h2 : countName parentNode rest = 0 := by
          simp [h1] at h; exact h
        rw [countName_eq_zero parentNode rest] at h2
        intro hc
        rcases hc with hc | hc
        · exact h1 hc.symm
        · exact h2 hc
      · intro h
        push_neg at h
        have h1 : ¬(n = parentNode) := fun hn => h.1 hn.symm
        have h2 : parentNode ∉ rest := h.2
        rw [if_neg h1, ← countName_eq_zero parentNode rest] at *
        simpa [h1] using h2

/-- In a balanced stream every open name is eventually closed: closes of
a name equal its opens plus its occurrences on the initial stack. -/
theorem balanced_count (parentNode : String) :
    ∀ (ts : List Tok) (stack : List String),
      balancedAux stack ts = true →
      countClose parentNode ts = countOpen parentNode ts + countName parentNode stack
  | [], stack, h => by
      simp only [balancedAux, List.isEmpty_iff] at h
      subst h
      simp [countClose, countOpen, countName]
  | Tok.startElem n _ :: ts, stack, h => by
      simp only [balancedAux] at h
      have ih := balanced_count parentNode ts (n :: stack) h
      simp only [countClose, countOpen, countName] at ih ⊢
      omega
  | Tok.endElem n :: ts, stack, h => by
      cases stack with
      | nil => simp [balancedAux] at h
      | cons m rest =>
          simp only [balancedAux] at h
          have hmn : m = n := by
            by_contra hc
            simp [hc] at h
          have h2 : balancedAux rest ts = true := by
            simp [hmn] at h; exact h
          have ih := balanced_count parentNode ts rest h2
          subst hmn
          simp only [countClose, countOpen, countName] at ih ⊢
          omega
  | Tok.charData _ :: ts, stack, h => by
      simp only [balancedAux] at h
      have ih := balanced_count parentNode ts stack h
      simpa [countClose, countOpen] using ih

/-- A balanced stream leaves the decoder with no open elements. -/
theorem balanced_openStack :
    ∀ (ts : List Tok) (stack : List String),
      balancedAux stack ts = true → openStack stack ts = some []
  | [], stack, h => by
      simp only [balancedAux, List.isEmpty_iff] at h
      subst h
      rfl
  | Tok.startElem n _ :: ts, stack, h => by
      simp only [balancedAux] at h
      simp only [openStack]
      exact balanced_openStack ts (n :: stack) h
  | Tok.endElem n :: ts, stack, h => by
      cases stack with
      | nil => simp [balancedAux] at h
      | cons m rest =>
          simp only [balancedAux] at h
          have hmn : m = n := by
            by_contra hc
            rw [if_neg hc] at h
            exact Bool.false_ne_true h
          subst hmn
          rw [if_pos rfl] at h
          simp only [openStack, if_pos rfl]
          exact balanced_openStack ts rest h
  | Tok.charData _ :: ts, stack, h => by
      simp only [balancedAux] at h
      simp only [openStack]
      exact balanced_openStack ts stack h

/-- Weak span invariant relating the walk to the decoder's stack of open
element names: the depth matches the stack size, and while inside a span
the captured `parentNode` element is still open, sitting at stack
position `captureDepth` counted from the bottom. Unlike `Inv` this
imposes no restriction on same-named nesting. -/
def SpanInv (parentNode : String) (stack : List String) (st : ParseState) : Prop :=
  st.currentDepth = (stack.length : Int)
  ∧ (st.insideParent = true →
      ∃ pre post, stack = pre ++ parentNode :: post
        ∧ st.captureDepth = (post.length : Int) + 1)

/-- The weak span invariant is preserved by the token walk along any
stream the decoder can deliver; in particular, a walk that ends inside a
span ends with the captured element still open. -/
theorem spanInv_run (referenceIDs : List String) (parentNode refNode : String) :
    ∀ (ts : List Tok) (stack0 stack : List String) (st : ParseState),
      openStack stack0 ts = some stack →
      SpanInv parentNode stack0 st →
      SpanInv parentNode stack (runTokens referenceIDs parentNode refNode ts st)
  | [], stack0, stack, st, hs, hInv => by
      simp only [openStack, Option.some.injEq] at hs
      subst hs
      exact hInv
  | Tok.startElem n a :: ts, stack0, stack, st, hs, hInv => by
      obtain ⟨h1, h2⟩ := hInv
      simp only [openStack] at hs
      refine spanInv_run referenceIDs parentNode refNode ts (n :: stack0) stack _ hs ?_
      by_cases hnp : n = parentNode
      · subst hnp
        have hst : stepToken referenceIDs n refNode st (Tok.startElem n a)
            = { st with
                currentDepth := st.currentDepth + 1,
                insideParent := true,
                captureDepth := st.currentDepth + 1,
                buffer := emitTok (Tok.startElem n a),
                matchFound := if refNode = "" then true else st.matchFound } := by
          simp [stepToken]
        rw [hst]
        constructor
        · show st.currentDepth + 1 = ((n :: stack0).length : Int)
          simp only [List.length_cons]
          push_cast
          omega
        · intro _
          exact ⟨[], stack0, rfl, by rw [h1]⟩
      · have hfields : (stepToken referenceIDs parentNode refNode st
              (Tok.startElem n a)).currentDepth = st.currentDepth + 1
            ∧ (stepToken referenceIDs parentNode refNode st
              (Tok.startElem n a)).insideParent = st.insideParent
            ∧ (stepToken referenceIDs parentNode refNode st
              (Tok.startElem n a)).captureDepth = st.captureDepth := by
          simp only [stepToken, if_neg hnp]
          split_ifs <;> simp
        constructor
        · rw [hfields.1, h1]
          simp only [List.length_cons]
          push_cast
          omega
        · intro hip
          rw [hfields.2.1] at hip
          obtain ⟨pre, post, hstack, hcd⟩ := h2 hip
          exact ⟨n :: pre, post, by rw [List.cons_append, hstack],
            by rw [hfields.2.2]; exact hcd⟩
  | Tok.endElem n :: ts, stack0, stack, st, hs, hInv => by
      obtain ⟨h1, h2⟩ := hInv
      cases stack0 with
      | nil => simp [openStack] at hs
      | cons m rest =>
        simp only [openStack] at hs
        have hmn : m = n := by
          by_contra hc
          rw [if_neg hc] at hs
          exact Option.noConfusion hs
        subst hmn
        rw [if_pos rfl] at hs
        refine spanInv_run referenceIDs parentNode refNode ts rest stack _ hs ?_
        by_cases hip : st.insideParent = true
        · by_cases hend : m = parentNode ∧ st.currentDepth = st.captureDepth
          · have hst : (stepToken referenceIDs parentNode refNode st
                  (Tok.endElem m)).currentDepth = st.currentDepth - 1
                ∧ (stepToken referenceIDs parentNode refNode st
                  (Tok.endElem m)).insideParent = false := by
              simp only [stepToken, if_pos hip, if_pos hend]
              simp
            constructor
            · rw [hst.1, h1]
              simp only [List.length_cons]
              push_cast
              omega
            · intro hip2
              rw [hst.2] at hip2
              exact absurd hip2 (by simp)
          · have hst : (stepToken referenceIDs parentNode refNode st
                  (Tok.endElem m)).currentDepth = st.currentDepth - 1
                ∧ (stepToken referenceIDs parentNode refNode st
                  (Tok.endElem m)).insideParent = st.insideParent
                ∧ (stepToken referenceIDs parentNode refNode st
                  (Tok.endElem m)).captureDepth = st.captureDepth := by
              simp only [stepToken, if_pos hip, if_neg hend]
              simp
            constructor
            · rw [hst.1, h1]
              simp only [List.length_cons]
              push_cast
              omega
            · intro hip2
              rw [hst.2.1] at hip2
              obtain ⟨pre, post, hstack, hcd⟩ := h2 hip2
              cases pre with
              | nil =>
                  exfalso
                  simp only [List.nil_append, List.cons.injEq] at hstack
                  apply hend
                  refine ⟨hstack.1, ?_⟩
                  rw [hcd, h1, hstack.2]
                  simp only [List.length_cons]
                  push_cast
                  omega
              | cons x pre2 =>
                  simp only [List.cons_append, List.cons.injEq] at hstack
                  exact ⟨pre2, post, hstack.2, by rw [hst.2.2]; exact hcd⟩
        · have hst : (stepToken referenceIDs parentNode refNode st
                (Tok.endElem m)).currentDepth = st.currentDepth - 1
              ∧ (stepToken referenceIDs parentNode refNode st
                (Tok.endElem m)).insideParent = st.insideParent := by
            simp only [stepToken, if_neg hip]
            simp
          constructor
          · rw [hst.1, h1]
            simp only [List.length_cons]
            push_cast
            omega
          · intro hip2
            rw [hst.2] at hip2
            exact absurd hip2 hip
  | Tok.charData s :: ts, stack0, stack, st, hs, hInv => by
      obtain ⟨h1, h2⟩ := hInv
      simp only [openStack] at hs
      refine spanInv_run referenceIDs parentNode refNode ts stack0 stack _ hs ?_
      have hfields : (stepToken referenceIDs parentNode refNode st
            (Tok.charData s)).currentDepth = st.currentDepth
          ∧ (stepToken referenceIDs parentNode refNode st
            (Tok.charData s)).insideParent = st.insideParent
          ∧ (stepToken referenceIDs parentNode refNode st
            (Tok.charData s)).captureDepth = st.captureDepth := by
        simp only [stepToken]
        split_ifs <;> simp
      constructor
      · rw [hfields.1]
        exact h1
      · intro hip
        rw [hfields.2.1] at hip
        obtain ⟨pre, post, hstack, hcd⟩ := h2 hip
        exact ⟨pre, post, hstack, by rw [hfields.2.2]; exact hcd⟩

/-- Main counting lemma: over a balanced stream with no nested
same-named parent elements, every close tag of `parentNode` ends one
considered span, and when `refNode` is empty every considered span emits
one fragment. -/
theorem master (referenceIDs : List String) (parentNode refNode : String) :
    ∀ (ts : List Tok) (stack : List String) (st : ParseState),
      balancedAux stack ts = true →
      noNestedAux parentNode (countName parentNode stack) ts = true →
      Inv parentNode refNode stack st →
      consideredCount referenceIDs parentNode refNode ts st = countClose parentNode ts
      ∧ (refNode = "" →
          (runTokens referenceIDs parentNode refNode ts st).results.length
            = st.results.length + countClose parentNode ts)
  | [], _, st, _, _, _ => ⟨rfl, fun _ => by simp [runTokens, countClose]⟩
  | Tok.startElem n a :: ts, stack, st, hb, hn, hInv => by
      obtain ⟨h1, h2, h3, h4, h5⟩ := hInv
      simp only [balancedAux] at hb
      have hse : spanEnds parentNode st (Tok.startElem n a) = false := rfl
      by_cases hnp : n = parentNode
      · subst hnp
        have hk0 : countName n stack = 0 := by
          by_contra hc
          simp only [noNestedAux, if_pos rfl] at hn
          rw [if_neg hc] at hn
          exact Bool.false_ne_true hn
        have hn2 : noNestedAux n 1 ts = true := by
          simp only [noNestedAux, if_pos rfl, hk0, if_pos rfl] at hn
          exact hn
        have hnotmem : n ∉ stack := (countName_eq_zero n stack).mp hk0
        have hst : stepToken referenceIDs n refNode st (Tok.startElem n a)
            = { st with
                currentDepth := st.currentDepth + 1,
                insideParent := true,
                captureDepth := st.currentDepth + 1,
                buffer := emitTok (Tok.startElem n a),
                matchFound := if refNode = "" then true else st.matchFound } := by
          simp [stepToken]
        have hInv2 : Inv n refNode (n :: stack)
            (stepToken referenceIDs n refNode st (Tok.startElem n a)) := by
          rw [hst]
          refine ⟨?_, ?_, ?_, ?_, ?_⟩
          · show st.currentDepth + 1 = ((n :: stack).length : Int)
            simp only [List.length_cons]
            push_cast
            omega
          · simp
          · intro pre post heq hpre
            show st.currentDepth + 1 = (post.length : Int) + 1
            cases pre with
            | nil =>
                simp only [List.nil_append, List.cons.injEq] at heq
                rw [h1, heq.2]
            | cons x pre2 =>
                exfalso
                simp only [List.cons_append, List.cons.injEq] at heq
                exact hpre (heq.1 ▸ List.mem_cons_self x pre2)
          · rintro ⟨hr, _⟩
            show (if refNode = "" then true else st.matchFound) = true
            rw [if_pos hr]
          · show countName n (n :: stack) ≤ 1
            simp [countName, hk0]
        have hcnt : countName n (n :: stack) = 1 := by
          simp [countName, hk0]
        have ih := master referenceIDs n refNode ts (n :: stack) _ hb
          (by rw [hcnt]; exact hn2) hInv2
        constructor
        · rw [consideredCount, hse]
          simp only [Bool.false_eq_true, if_false, zero_add]
          rw [ih.1]
          simp [countClose]
        · intro hr
          rw [runTokens]
          have hlen := ih.2 hr
          rw [hlen, hst]
          simp [countClose]
      · have hn2 : noNestedAux parentNode (countName parentNode stack) ts = true := by
          simp only [noNestedAux, if_neg hnp] at hn
          exact hn
        have hcnt : countName parentNode (n :: stack) = countName parentNode stack := by
          simp [countName, hnp]
        have hfields : (stepToken referenceIDs parentNode refNode st
              (Tok.startElem n a)).currentDepth = st.currentDepth + 1
            ∧ (stepToken referenceIDs parentNode refNode st
              (Tok.startElem n a)).insideParent = st.insideParent
            ∧ (stepToken referenceIDs parentNode refNode st
              (Tok.startElem n a)).captureDepth = st.captureDepth
            ∧ (stepToken referenceIDs parentNode refNode st
              (Tok.startElem n a)).matchFound = st.matchFound
            ∧ (stepToken referenceIDs parentNode refNode st
              (Tok.startElem n a)).results = st.results := by
          simp only [stepToken, if_neg hnp]
          split_ifs <;> simp
        have hInv2 : Inv parentNode refNode (n :: stack)
            (stepToken referenceIDs parentNode refNode st (Tok.startElem n a)) := by
          obtain ⟨hf1, hf2, hf3, hf4, hf5⟩ := hfields
          refine ⟨?_, ?_, ?_, ?_, ?_⟩
          · rw [hf1, h1]
            simp only [List.length_cons]
            push_cast
            omega
          · rw [hf2, h2, List.mem_cons]
            constructor
            · exact Or.inr
            · rintro (hc | hc)
              · exact absurd hc.symm hnp
              · exact hc
          · intro pre post heq hpre
            rw [hf3]
            cases pre with
            | nil =>
                exfalso
                simp only [List.nil_append, List.cons.injEq] at heq
                exact hnp heq.1
            | cons x pre2 =>
                simp only [List.cons_append, List.cons.injEq] at heq
                exact h3 pre2 post heq.2
                  (fun hc => hpre (List.mem_cons_of_mem x hc))
          · rintro ⟨hr, hip⟩
            rw [hf4]
            rw [hf2] at hip
            exact h4 ⟨hr, hip⟩
          · rw [hcnt]
            exact h5
        have ih := master referenceIDs parentNode refNode ts (n :: stack) _ hb
          (by rw [hcnt]; exact hn2) hInv2
        constructor
        · rw [consideredCount, hse]
          simp only [Bool.false_eq_true, if_false, zero_add]
          rw [ih.1]
          simp [countClose]
        · intro hr
          rw [runTokens]
          have hlen := ih.2 hr
          rw [hlen, hfields.2.2.2.2]
          simp [countClose]
  | Tok.endElem n :: ts, stack, st, hb, hn, hInv => by
      obtain ⟨h1, h2, h3, h4, h5⟩ := hInv
      cases stack with
      | nil => simp [balancedAux] at hb
      | cons m rest =>
        simp only [balancedAux] at hb
        have hmn : m = n := by
          by_contra hc
          rw [if_neg hc] at hb
          exact Bool.false_ne_true hb
        subst hmn
        rw [if_pos rfl] at hb
        by_cases hnp : m = parentNode
        · subst hnp
          have hip : st.insideParent = true := h2.mpr (List.mem_cons_self _ _)
          have hcd : st.captureDepth = (rest.length : Int) + 1 :=
            h3 [] rest rfl (List.not_mem_nil _)
          have hdep : st.currentDepth = st.captureDepth := by
            rw [hcd, h1]
            simp only [List.length_cons]
            push_cast
            omega
          have hse : spanEnds m st (Tok.endElem m) = true := by
            show (if st.insideParent = true ∧ m = m
                    ∧ st.currentDepth = st.captureDepth then true else false) = true
            rw [if_pos ⟨hip, rfl, hdep⟩]
          have hcnt1 : countName m (m :: rest)
              = 1 + countName m rest := by
            simp [countName]
          have hrest0 : countName m rest = 0 := by omega
          have hnotmem : m ∉ rest := (countName_eq_zero _ _).mp hrest0
          have hst : stepToken referenceIDs m refNode st (Tok.endElem m)
              = { st with
                  currentDepth := st.currentDepth - 1,
                  buffer := "",
                  insideParent := false,
                  captureDepth := -1,
                  matchFound := false,
                  results :=
                    if st.matchFound
                    then st.results ++ [st.buffer ++ emitTok (Tok.endElem m)]
                    else st.results } := by
            simp [stepToken, hip, hdep]
          have hInv2 : Inv m refNode rest
              (stepToken referenceIDs m refNode st (Tok.endElem m)) := by
            rw [hst]
            refine ⟨?_, ?_, ?_, ?_, ?_⟩
            · show st.currentDepth - 1 = (rest.length : Int)
              rw [h1]
              simp only [List.length_cons]
              push_cast
              omega
            · show (false = true) ↔ m ∈ rest
              simp [hnotmem]
            · intro pre post heq _
              exfalso
              apply hnotmem
              rw [heq]
              exact List.mem_append_right pre (List.mem_cons_self _ _)
            · rintro ⟨_, hfalse⟩
              exact absurd hfalse (by simp)
            · show countName m rest ≤ 1
              omega
          have hnn2 : noNestedAux m (countName m rest) ts = true := by
            rw [hrest0]
            simp only [noNestedAux, if_pos rfl, hcnt1, hrest0] at hn
            simpa using hn
          have ih := master referenceIDs m refNode ts rest _ hb hnn2 hInv2
          constructor
          · rw [consideredCount, hse]
            simp only [if_pos rfl]
            rw [ih.1]
            simp [countClose]
          · intro hr
            have hmf : st.matchFound = true := h4 ⟨hr, hip⟩
            have hlen := ih.2 hr
            rw [runTokens, hlen, hst]
            simp only [hmf, if_pos rfl, List.length_append, List.length_singleton]
            simp [countClose]
            omega
        · have hse : spanEnds parentNode st (Tok.endElem m) = false := by
            show (if st.insideParent = true ∧ m = parentNode
                    ∧ st.currentDepth = st.captureDepth then true else false) = false
            rw [if_neg (fun hc => hnp hc.2.1)]
          have hfields : (stepToken referenceIDs parentNode refNode st
                (Tok.endElem m)).currentDepth = st.currentDepth - 1
              ∧ (stepToken referenceIDs parentNode refNode st
                (Tok.endElem m)).insideParent = st.insideParent
              ∧ (stepToken referenceIDs parentNode refNode st
                (Tok.endElem m)).captureDepth = st.captureDepth
              ∧ (stepToken referenceIDs parentNode refNode st
                (Tok.endElem m)).matchFound = st.matchFound
              ∧ (stepToken referenceIDs parentNode refNode st
                (Tok.endElem m)).results = st.results := by
            simp only [stepToken]
            by_cases hip : st.insideParent = true
            · rw [if_pos hip, if_neg (fun hc => hnp hc.1)]
              simp
            · rw [if_neg hip]
              simp
          have hcnt : countName parentNode (m :: rest) = countName parentNode rest := by
            simp [countName, hnp]
          have hInv2 : Inv parentNode refNode rest
              (stepToken referenceIDs parentNode refNode st (Tok.endElem m)) := by
            obtain ⟨hf1, hf2, hf3, hf4, hf5⟩ := hfields
            refine ⟨?_, ?_, ?_, ?_, ?_⟩
            · rw [hf1, h1]
              simp only [List.length_cons]
              push_cast
              omega
            · rw [hf2, h2, List.mem_cons]
              constructor
              · rintro (hc | hc)
                · exact absurd hc.symm hnp
                · exact hc
              · exact Or.inr
            · intro pre post heq hpre
              rw [hf3]
              refine h3 (m :: pre) post ?_ ?_
              · rw [List.cons_append, heq]
              · intro hc
                rcases List.mem_cons.mp hc with hc2 | hc2
                · exact hnp hc2.symm
                · exact hpre hc2
            · rintro ⟨hr, hip⟩
              rw [hf4]
              rw [hf2] at hip
              exact h4 ⟨hr, hip⟩
            · rw [← hcnt]
              exact h5
          have hnn2 : noNestedAux parentNode (countName parentNode rest) ts = true := by
            have hmne : ¬(m = parentNode) := hnp
            simp only [noNestedAux, if_neg hmne, hcnt] at hn
            exact hn
          have ih := master referenceIDs parentNode refNode ts rest _ hb hnn2 hInv2
          constructor
          · rw [consideredCount, hse]
            simp only [Bool.false_eq_true, if_false, zero_add]
            rw [ih.1]
            simp [countClose, hnp]
          · intro hr
            have hlen := ih.2 hr
            rw [runTokens, hlen, hfields.2.2.2.2]
            simp [countClose, hnp]
  | Tok.charData s :: ts, stack, st, hb, hn, hInv => by
      obtain ⟨h1, h2, h3, h4, h5⟩ := hInv
      simp only [balancedAux] at hb
      have hn2 : noNestedAux parentNode (countName parentNode stack) ts = true := by
        simpa [noNestedAux] using hn
      have hse : spanEnds parentNode st (Tok.charData s) = false := rfl
      have hfields : (stepToken referenceIDs parentNode refNode st
            (Tok.charData s)).currentDepth = st.currentDepth
          ∧ (stepToken referenceIDs parentNode refNode st
            (Tok.charData s)).insideParent = st.insideParent
          ∧ (stepToken referenceIDs parentNode refNode st
            (Tok.charData s)).captureDepth = st.captureDepth
          ∧ (stepToken referenceIDs parentNode refNode st
            (Tok.charData s)).results = st.results := by
        simp only [stepToken]
        split_ifs <;> simp
      have hInv2 : Inv parentNode refNode stack
          (stepToken referenceIDs parentNode refNode st (Tok.charData s)) := by
        obtain ⟨hf1, hf2, hf3, hf4⟩ := hfields
        refine ⟨by rw [hf1]; exact h1, by rw [hf2]; exact h2,
          fun pre post heq hpre => by rw [hf3]; exact h3 pre post heq hpre, ?_, h5⟩
        rintro ⟨hr, hip⟩
        rw [hf2] at hip
        have hmf := h4 ⟨hr, hip⟩
        simp only [stepToken, hip, if_pos rfl]
        have hcond : ¬(refNode ≠ "" ∧ st.captureDepth ≠ -1
            ∧ contains referenceIDs (trimSpace s) = true) := by
          rintro ⟨hc, _⟩
          exact hc hr
        rw [if_neg hcond]
        exact hmf
      have ih := master referenceIDs parentNode refNode ts stack _ hb hn2 hInv2
      constructor
      · rw [consideredCount, hse]
        simp only [Bool.false_eq_true, if_false, zero_add]
        rw [ih.1]
        simp [countClose]
      · intro hr
        rw [runTokens]
        have hlen := ih.2 hr
        rw [hlen, hfields.2.2.2]
        simp [countClose]

/-- With an empty `refNode`, a step never consults the reference list. -/
theorem stepToken_noRef (referenceIDs referenceIDs2 : List String) (parentNode : String)
    (st : ParseState) (t : Tok) :
    stepToken referenceIDs parentNode "" st t
      = stepToken referenceIDs2 parentNode "" st t := by
  cases t with
  | startElem n a => rfl
  | endElem n => rfl
  | charData s =>
      simp only [stepToken]
      split_ifs with h1 h2 h3 <;> simp_all

/-- With an empty `refNode`, the whole walk is independent of the
reference list: no text comparison is performed. -/
theorem runTokens_noRef (referenceIDs referenceIDs2 : List String) (parentNode : String) :
    ∀ (ts : List Tok) (st : ParseState),
      runTokens referenceIDs parentNode "" ts st
        = runTokens referenceIDs2 parentNode "" ts st
  | [], _ => rfl
  | t :: ts, st => by
      rw [runTokens, runTokens, stepToken_noRef referenceIDs referenceIDs2 parentNode st t,
        runTokens_noRef referenceIDs referenceIDs2 parentNode ts _]

/-! ### Chunking lemmas -/

/-- Concatenating the chunks restores the entry list. -/
theorem chunkList_flatten (chunk : Nat) (hc : 0 < chunk) (l : List String) :
    (chunkList chunk l).flatten = l := by
  have hgen : ∀ (n : Nat) (l2 : List String), l2.length = n →
      (chunkList chunk l2).flatten = l2 := by
    intro n
    induction n using Nat.strong_induction_on with
    | _ n ih =>
      intro l2 hn
      rw [chunkList]
      split_ifs with h
      · rcases h with h | h
        · simp [h]
        · omega
      · push_neg at h
        have hpos : 0 < l2.length := List.length_pos.mpr h.1
        have hlt : (l2.drop chunk).length < n := by
          rw [List.length_drop]
          omega
        have := ih _ hlt (l2.drop chunk) rfl
        simp only [List.flatten_cons]
        rw [this, List.take_append_drop]
  exact hgen l.length l rfl

/-- Every chunk has at most `chunk` entries. -/
theorem chunkList_sizes (chunk : Nat) (l : List String) :
    ∀ g ∈ chunkList chunk l, g.length ≤ chunk := by
  have hgen : ∀ (n : Nat) (l2 : List String), l2.length = n →
      ∀ g ∈ chunkList chunk l2, g.length ≤ chunk := by
    intro n
    induction n using Nat.strong_induction_on with
    | _ n ih =>
      intro l2 hn g hg
      rw [chunkList] at hg
      split_ifs at hg with h
      · exact absurd hg (List.not_mem_nil g)
      · push_neg at h
        have hpos : 0 < l2.length := List.length_pos.mpr h.1
        rcases List.mem_cons.mp hg with hg2 | hg2
        · rw [hg2, List.length_take]
          omega
        · have hlt : (l2.drop chunk).length < n := by
            rw [List.length_drop]
            omega
          exact ih _ hlt (l2.drop chunk) rfl g hg2
  exact hgen l.length l rfl

/-! ### Claim theorems -/

/-- C1 (amended): each emitted fragment is the canonical re-serialization
of exactly the span's token sequence — open tag, interior tokens and
close tag in order, with tag names, attribute names, values and order
preserved. It is not byte-identical to the source markup: the encoder
re-escapes character data and re-quotes attributes (see the
counterexample). Hypotheses: the interior contains no same-named open
tag, stays inside the span, is depth-balanced, and the span is matched
when the close tag arrives. -/
theorem C1_fragment_serialization (referenceIDs : List String)
    (parentNode refNode : String) (attrs : List Attr) (interior : List Tok)
    (st : ParseState)
    (hop : noPnOpen parentNode interior = true)
    (hin : inSpanThroughout referenceIDs parentNode refNode interior
      (stepToken referenceIDs parentNode refNode st
        (Tok.startElem parentNode attrs)) = true)
    (hd : netDepth interior = 0)
    (hm : (runTokens referenceIDs parentNode refNode
        (Tok.startElem parentNode attrs :: interior) st).matchFound = true) :
    (runTokens referenceIDs parentNode refNode
        (Tok.startElem parentNode attrs :: (interior ++ [Tok.endElem parentNode])) st).results
      = st.results
        ++ [emitTokens (Tok.startElem parentNode attrs
              :: (interior ++ [Tok.endElem parentNode]))] := by
  have hsplit : Tok.startElem parentNode attrs :: (interior ++ [Tok.endElem parentNode])
      = (Tok.startElem parentNode attrs :: interior) ++ [Tok.endElem parentNode] := rfl
  rw [hsplit, run_append]
  have hrun1 : runTokens referenceIDs parentNode refNode
      (Tok.startElem parentNode attrs :: interior) st
      = runTokens referenceIDs parentNode refNode interior
          (stepToken referenceIDs parentNode refNode st
            (Tok.startElem parentNode attrs)) := rfl
  have hst1 : stepToken referenceIDs parentNode refNode st
      (Tok.startElem parentNode attrs)
      = { st with
          currentDepth := st.currentDepth + 1,
          insideParent := true,
          captureDepth := st.currentDepth + 1,
          buffer := emitTok (Tok.startElem parentNode attrs),
          matchFound := if refNode = "" then true else st.matchFound } := by
    simp [stepToken]
  obtain ⟨hbuf, hres, hcd, hip⟩ :=
    span_buffer referenceIDs parentNode refNode interior
      (stepToken referenceIDs parentNode refNode st (Tok.startElem parentNode attrs))
      hop hin
  have hdep : (runTokens referenceIDs parentNode refNode interior
      (stepToken referenceIDs parentNode refNode st
        (Tok.startElem parentNode attrs))).currentDepth = st.currentDepth + 1 := by
    rw [run_depth, hd, hst1]
    simp
  have hcd2 : (runTokens referenceIDs parentNode refNode interior
      (stepToken referenceIDs parentNode refNode st
        (Tok.startElem parentNode attrs))).captureDepth = st.currentDepth + 1 := by
    rw [hcd, hst1]
  have hmf : (runTokens referenceIDs parentNode refNode interior
      (stepToken referenceIDs parentNode refNode st
        (Tok.startElem parentNode attrs))).matchFound = true := by
    rw [← hrun1]
    exact hm
  have hst1res : (stepToken referenceIDs parentNode refNode st
      (Tok.startElem parentNode attrs)).results = st.results := by
    simp [stepToken]
  have hst1buf : (stepToken referenceIDs parentNode refNode st
      (Tok.startElem parentNode attrs)).buffer
      = emitTok (Tok.startElem parentNode attrs) := by
    simp [stepToken]
  have hse : spanEnds parentNode
      (runTokens referenceIDs parentNode refNode interior
        (stepToken referenceIDs parentNode refNode st
          (Tok.startElem parentNode attrs)))
      (Tok.endElem parentNode) = true :=
    (spanEnds_true_iff parentNode _ parentNode).mpr ⟨hip, rfl, by rw [hdep, hcd2]⟩
  show (stepToken referenceIDs parentNode refNode
      (runTokens referenceIDs parentNode refNode interior
        (stepToken referenceIDs parentNode refNode st
          (Tok.startElem parentNode attrs)))
      (Tok.endElem parentNode)).results = _
  rw [results_stepToken, if_pos ⟨hse, hmf⟩, hres, hbuf, hst1res, hst1buf]
  have h1 : emitTokens [Tok.endElem parentNode]
      = emitTok (Tok.endElem parentNode) := by
    show emitTok (Tok.endElem parentNode) ++ "" = emitTok (Tok.endElem parentNode)
    exact String.append_empty _
  have h2 : emitTokens (Tok.startElem parentNode attrs :: interior)
      = emitTok (Tok.startElem parentNode attrs) ++ emitTokens interior := rfl
  rw [emitTokens_append, h1, h2]

/-- C1 (counterexample to the claim as stated): for the well-formed
source `<job>line1\nline2</job>` the single emitted fragment re-escapes
the newline in the character data as `&#xA;`, so it does not reproduce
the parent element's markup and text exactly as written in the source. -/
theorem C1_counterexample :
    decodeXml "<job>line1\nline2</job>"
      = some [Tok.startElem "job" [], Tok.charData "line1\nline2", Tok.endElem "job"]
    ∧ balancedAux []
        [Tok.startElem "job" [], Tok.charData "line1\nline2", Tok.endElem "job"] = true
    ∧ parseXML
        [Tok.startElem "job" [], Tok.charData "line1\nline2", Tok.endElem "job"]
        none [] "job" ""
      = Except.ok ["<job>line1&#xA;line2</job>"]
    ∧ "<job>line1&#xA;line2</job>" ≠ "<job>line1\nline2</job>" := by
  refine ⟨by decide, by decide, by rfl, by decide⟩

/-- C1 (witness): a concrete one-span run emits exactly the canonical
serialization of the span's tokens. -/
theorem C1_witness :
    (runTokens [] "job" ""
        (Tok.startElem "job" [] :: ([Tok.charData "x"] ++ [Tok.endElem "job"]))
        initState).results
      = initState.results
        ++ [emitTokens (Tok.startElem "job" []
              :: ([Tok.charData "x"] ++ [Tok.endElem "job"]))] :=
  C1_fragment_serialization [] "job" "" [] [Tok.charData "x"] initState
    (by decide) (by decide) (by decide) (by decide)

/-- C2: with a non-empty `childName`, a span's matched flag ends set iff
it was already set or some character-data token seen inside the span
trims to a member of the reference set — anywhere in the span, first
qualifying text wins and later text never unsets it; concretely,
reference `12345` matches source text `  12345\n` and not `12345X`. -/
theorem C2_child_match (referenceIDs : List String) (parentNode refNode : String)
    (ts : List Tok) (st : ParseState) (hrn : refNode ≠ "")
    (hin : inSpanThroughout referenceIDs parentNode refNode ts st = true) :
    ((runTokens referenceIDs parentNode refNode ts st).matchFound = true ↔
      (st.matchFound = true ∨
        ∃ s, Tok.charData s ∈ ts ∧ contains referenceIDs (trimSpace s) = true))
    ∧ trimSpace "  12345\n" = "12345"
    ∧ contains ["12345"] (trimSpace "  12345\n") = true
    ∧ contains ["12345"] (trimSpace "12345X") = false :=
  ⟨matched_iff_aux referenceIDs parentNode refNode hrn ts st hin,
   by decide, by decide, by decide⟩

/-- C2 (witness): inside a span opened by `<job>`, the text
`  12345\n` sets the matched flag against reference set `{12345}`. -/
theorem C2_witness :
    ((runTokens ["12345"] "job" "job_reference" [Tok.charData "  12345\n"]
        { currentDepth := 1, buffer := "<job>", captureDepth := 1,
          insideParent := true, matchFound := false, results := [] }).matchFound = true ↔
      (({ currentDepth := 1, buffer := "<job>", captureDepth := 1,
          insideParent := true, matchFound := false,
          results := [] } : ParseState).matchFound = true ∨
        ∃ s, Tok.charData s ∈ [Tok.charData "  12345\n"]
          ∧ contains ["12345"] (trimSpace s) = true))
    ∧ trimSpace "  12345\n" = "12345"
    ∧ contains ["12345"] (trimSpace "  12345\n") = true
    ∧ contains ["12345"] (trimSpace "12345X") = false :=
  C2_child_match ["12345"] "job" "job_reference" [Tok.charData "  12345\n"]
    { currentDepth := 1, buffer := "<job>", captureDepth := 1,
      insideParent := true, matchFound := false, results := [] }
    (by decide) (by decide)

/-- C3 (amended): for well-formed (balanced) inputs in which no
`parentName` element is nested inside another `parentName` element, the
number of open/close pairs for `parentName` equals the number of spans
considered, and the emitted fragments never exceed that number (each
considered span is either emitted or discarded). With same-named nesting
this fails — see the counterexample. -/
theorem C3_spans_considered (referenceIDs : List String) (parentNode refNode : String)
    (ts : List Tok) (hb : balancedAux [] ts = true)
    (hnn : noNestedAux parentNode 0 ts = true) :
    consideredCount referenceIDs parentNode refNode ts initState
        = countOpen parentNode ts
    ∧ (runTokens referenceIDs parentNode refNode ts initState).results.length
        ≤ countOpen parentNode ts := by
  have hInv : Inv parentNode refNode [] initState := by
    refine ⟨by simp [initState], by simp [initState], ?_, by simp [initState],
      by simp [countName]⟩
    intro pre post heq _
    exact absurd heq (by simp)
  have hm := master referenceIDs parentNode refNode ts [] initState hb
    (by simpa [countName] using hnn) hInv
  have hco : countClose parentNode ts
      = countOpen parentNode ts + countName parentNode [] :=
    balanced_count parentNode ts [] hb
  simp only [countName, Nat.add_zero] at hco
  constructor
  · rw [hm.1, hco]
  · have hle := emitted_le_considered referenceIDs parentNode refNode ts initState
    rw [hm.1, hco] at hle
    simpa [initState] using hle

/-- C3 (counterexample to the claim as stated): the well-formed input
`<job><job></job></job>` has two open/close pairs for `job` but only one
span is ever considered — the inner open resets the span, and the outer
close tag is ignored. -/
theorem C3_counterexample :
    balancedAux [] [Tok.startElem "job" [], Tok.startElem "job" [],
        Tok.endElem "job", Tok.endElem "job"] = true
    ∧ countOpen "job" [Tok.startElem "job" [], Tok.startElem "job" [],
        Tok.endElem "job", Tok.endElem "job"] = 2
    ∧ consideredCount ["x"] "job" "ref" [Tok.startElem "job" [],
        Tok.startElem "job" [], Tok.endElem "job", Tok.endElem "job"] initState = 1
    ∧ ¬(consideredCount ["x"] "job" "ref" [Tok.startElem "job" [],
          Tok.startElem "job" [], Tok.endElem "job", Tok.endElem "job"] initState
        = countOpen "job" [Tok.startElem "job" [], Tok.startElem "job" [],
          Tok.endElem "job", Tok.endElem "job"]) := by
  refine ⟨by decide, by decide, by decide, by decide⟩

/-- C3 (witness): a concrete balanced input with two non-nested `job`
elements — two pairs, two considered spans, at most two fragments. -/
theorem C3_witness :
    consideredCount ["12345"] "job" "ref"
        [Tok.startElem "job" [], Tok.endElem "job",
         Tok.startElem "other" [], Tok.endElem "other",
         Tok.startElem "job" [], Tok.endElem "job"] initState
      = countOpen "job"
        [Tok.startElem "job" [], Tok.endElem "job",
         Tok.startElem "other" [], Tok.endElem "other",
         Tok.startElem "job" [], Tok.endElem "job"]
    ∧ (runTokens ["12345"] "job" "ref"
        [Tok.startElem "job" [], Tok.endElem "job",
         Tok.startElem "other" [], Tok.endElem "other",
         Tok.startElem "job" [], Tok.endElem "job"] initState).results.length
      ≤ countOpen "job"
        [Tok.startElem "job" [], Tok.endElem "job",
         Tok.startElem "other" [], Tok.endElem "other",
         Tok.startElem "job" [], Tok.endElem "job"] :=
  C3_spans_considered ["12345"] "job" "ref"
    [Tok.startElem "job" [], Tok.endElem "job",
     Tok.startElem "other" [], Tok.endElem "other",
     Tok.startElem "job" [], Tok.endElem "job"] (by decide) (by decide)

/-- C4 (amended): with an empty `childName`, on well-formed inputs with
no same-named nesting, the extractor emits one fragment per occurrence
of `parentName` and the whole run is independent of the reference set
(no text comparison happens). With same-named nesting an enclosing
occurrence is not emitted — see the counterexample. -/
theorem C4_no_filter (referenceIDs referenceIDs2 : List String) (parentNode : String)
    (ts : List Tok) (hb : balancedAux [] ts = true)
    (hnn : noNestedAux parentNode 0 ts = true) :
    (runTokens referenceIDs parentNode "" ts initState).results.length
        = countOpen parentNode ts
    ∧ runTokens referenceIDs parentNode "" ts initState
        = runTokens referenceIDs2 parentNode "" ts initState := by
  have hInv : Inv parentNode "" [] initState := by
    refine ⟨by simp [initState], by simp [initState], ?_, by simp [initState],
      by simp [countName]⟩
    intro pre post heq _
    exact absurd heq (by simp)
  have hm := master referenceIDs parentNode "" ts [] initState hb
    (by simpa [countName] using hnn) hInv
  have hco : countClose parentNode ts
      = countOpen parentNode ts + countName parentNode [] :=
    balanced_count parentNode ts [] hb
  simp only [countName, Nat.add_zero] at hco
  constructor
  · have hlen := hm.2 rfl
    rw [hco] at hlen
    simpa [initState] using hlen
  · exact runTokens_noRef referenceIDs referenceIDs2 parentNode ts initState

/-- C4 (counterexample to the claim as stated): in the well-formed input
`<job><job></job></job>` with empty `childName` there are two
occurrences of `job` but only the inner one is emitted. -/
theorem C4_counterexample :
    balancedAux [] [Tok.startElem "job" [], Tok.startElem "job" [],
        Tok.endElem "job", Tok.endElem "job"] = true
    ∧ countOpen "job" [Tok.startElem "job" [], Tok.startElem "job" [],
        Tok.endElem "job", Tok.endElem "job"] = 2
    ∧ parseXML [Tok.startElem "job" [], Tok.startElem "job" [],
        Tok.endElem "job", Tok.endElem "job"] none ["12345"] "job" ""
      = Except.ok ["<job></job>"]
    ∧ ¬((runTokens ["12345"] "job" "" [Tok.startElem "job" [],
          Tok.startElem "job" [], Tok.endElem "job", Tok.endElem "job"]
          initState).results.length
        = countOpen "job" [Tok.startElem "job" [], Tok.startElem "job" [],
          Tok.endElem "job", Tok.endElem "job"]) := by
  refine ⟨by decide, by decide, by rfl, by decide⟩

/-- C4 (witness): two sibling `job` elements with empty `childName` are
both emitted, for any reference set. -/
theorem C4_witness :
    (runTokens [] "job" ""
        [Tok.startElem "job" [], Tok.endElem "job",
         Tok.startElem "job" [], Tok.endElem "job"] initState).results.length
      = countOpen "job"
        [Tok.startElem "job" [], Tok.endElem "job",
         Tok.startElem "job" [], Tok.endElem "job"]
    ∧ runTokens [] "job" ""
        [Tok.startElem "job" [], Tok.endElem "job",
         Tok.startElem "job" [], Tok.endElem "job"] initState
      = runTokens ["99999"] "job" ""
        [Tok.startElem "job" [], Tok.endElem "job",
         Tok.startElem "job" [], Tok.endElem "job"] initState :=
  C4_no_filter [] ["99999"] "job"
    [Tok.startElem "job" [], Tok.endElem "job",
     Tok.startElem "job" [], Tok.endElem "job"] (by decide) (by decide)

/-- A truncated input: one completed `job` span followed by a `job` span
still open when the input ends (raw source `<job></job><job>x`). Used by
the C5 counterexample and witness. -/
def truncatedInput : List Tok :=
  [Tok.startElem "job" [], Tok.endElem "job",
   Tok.startElem "job" [], Tok.charData "x"]

/-- C5 (amended): reaching the end of input while a capture span is
still open IS an error — an open span means the captured element is
still open on the decoder's stack, so Go's strict decoder converts the
end-of-input into the `unexpected EOF` syntax error and `parseXML`
returns it, discarding the fragments of earlier completed spans instead
of returning them. -/
theorem C5_truncated_error (referenceIDs : List String) (parentNode refNode : String)
    (toks : List Tok) (stack : List String)
    (hs : openStack [] toks = some stack)
    (hip : (runTokens referenceIDs parentNode refNode toks initState).insideParent
      = true) :
    parseXML toks none referenceIDs parentNode refNode
      = Except.error "XML syntax error: unexpected EOF" := by
  have hInv : SpanInv parentNode stack
      (runTokens referenceIDs parentNode refNode toks initState) :=
    spanInv_run referenceIDs parentNode refNode toks [] stack initState hs
      ⟨by simp [initState], fun hip0 => absurd hip0 (by simp [initState])⟩
  obtain ⟨pre, post, hstack, _⟩ := hInv.2 hip
  simp only [parseXML]
  rw [hs, hstack]
  cases pre with
  | nil => rfl
  | cons x xs => rfl

/-- C5 (counterexample to the claim as stated): on the truncated input
`<job></job><job>x` a span is still open at the end of input and the
earlier completed span did produce a fragment, yet the call returns the
`unexpected EOF` error rather than that fragment. -/
theorem C5_counterexample :
    (runTokens [] "job" "" truncatedInput initState).insideParent = true
    ∧ (runTokens [] "job" ""
        [Tok.startElem "job" [], Tok.endElem "job"] initState).results
      = ["<job></job>"]
    ∧ parseXML truncatedInput none [] "job" ""
      = Except.error "XML syntax error: unexpected EOF"
    ∧ parseXML truncatedInput none [] "job" "" ≠ Except.ok ["<job></job>"] := by
  refine ⟨by decide, by decide, by rfl, ?_⟩
  intro hc
  rw [show parseXML truncatedInput none [] "job" ""
      = Except.error "XML syntax error: unexpected EOF" from rfl] at hc
  exact Except.noConfusion hc

/-- C5 (witness): the truncated input leaves a span open and the call
reports the `unexpected EOF` error. -/
theorem C5_witness :
    parseXML truncatedInput none [] "job" ""
      = Except.error "XML syntax error: unexpected EOF" :=
  C5_truncated_error [] "job" "" truncatedInput ["job"] (by decide) (by decide)

/-- C6: a tokenization error aborts the whole call with that error; the
fragments already collected — even when there are some — are not
returned. -/
theorem C6_error_aborts (referenceIDs : List String) (parentNode refNode : String)
    (ts : List Tok) (e : String)
    (h : (runTokens referenceIDs parentNode refNode ts initState).results ≠ []) :
    parseXML ts (some e) referenceIDs parentNode refNode = Except.error e := rfl

/-- C6 (witness): a stream with one already-emitted fragment followed by
a tokenization error returns only the error. -/
theorem C6_witness :
    parseXML [Tok.startElem "job" [], Tok.endElem "job"]
        (some "XML syntax error") [] "job" ""
      = Except.error "XML syntax error" :=
  C6_error_aborts [] "job" ""
    [Tok.startElem "job" [], Tok.endElem "job"] "XML syntax error" (by decide)

/-- C7: fragments appear in the output in document order — the results
of any prefix of the stream form a prefix of the final results, so a
fragment whose parent element closes earlier is listed earlier. -/
theorem C7_document_order (referenceIDs : List String) (parentNode refNode : String)
    (ts1 ts2 : List Tok) (st : ParseState) :
    ∃ laterFragments,
      (runTokens referenceIDs parentNode refNode (ts1 ++ ts2) st).results
        = (runTokens referenceIDs parentNode refNode ts1 st).results
            ++ laterFragments := by
  rw [run_append]
  exact results_mono referenceIDs parentNode refNode ts2 _

/-- C8: the fragment sequence is chunked into ordered, contiguous,
non-overlapping groups (their concatenation is the original sequence) of
at most the requested size; a non-positive requested size yields one
group containing everything; five fragments with maximum size 2 yield
groups of sizes 2, 2, 1. -/
theorem C8_chunking (entries : List String) (cs : Int) :
    (chunkEntries entries cs).flatten = entries
    ∧ (0 < cs → ∀ g ∈ chunkEntries entries cs, (g.length : Int) ≤ cs)
    ∧ (cs ≤ 0 → entries ≠ [] → chunkEntries entries cs = [entries])
    ∧ (∀ a b c d e : String,
        (chunkEntries [a, b, c, d, e] 2).map List.length = [2, 2, 1]) := by
  refine ⟨?_, ?_, ?_, ?_⟩
  · by_cases hemp : entries = []
    · subst hemp
      simp only [chunkEntries]
      rw [chunkList]
      simp
    · simp only [chunkEntries]
      apply chunkList_flatten
      have hpos : 0 < entries.length := List.length_pos.mpr hemp
      split_ifs with h
      · omega
      · push_neg at h
        omega
  · intro hcs g hg
    simp only [chunkEntries] at hg
    have hlen := chunkList_sizes _ entries g hg
    split_ifs at hlen with h
    · rcases h with h | h
      · omega
      · omega
    · omega
  · intro hcs hne
    have hpos : 0 < entries.length := List.length_pos.mpr hne
    simp only [chunkEntries]
    rw [if_pos (Or.inl hcs)]
    rw [chunkList, if_neg (by push_neg; exact ⟨hne, by omega⟩)]
    simp only [Int.toNat_natCast]
    rw [List.take_length, List.drop_length]
    rw [chunkList]
    simp
  · intro a b c d e
    simp only [chunkEntries]
    norm_num
    rw [chunkList, if_neg (by simp)]
    rw [chunkList, if_neg (by simp)]
    rw [chunkList, if_neg (by simp)]
    rw [chunkList]
    simp

/-- C8 (witness): concrete chunkings — two groups of two and one of one
from five entries, everything restored by concatenation, and one group
holding everything when the requested size is non-positive. -/
theorem C8_witness :
    (chunkEntries ["a", "b", "c"] 2).flatten = ["a", "b", "c"]
    ∧ chunkEntries ["a", "b"] 0 = [["a", "b"]]
    ∧ (chunkEntries ["a", "b", "c", "d", "e"] 2).map List.length = [2, 2, 1]
    ∧ (∀ g ∈ chunkEntries ["a", "b", "c"] 2, (g.length : Int) ≤ 2) :=
  ⟨(C8_chunking ["a", "b", "c"] 2).1,
   (C8_chunking ["a", "b"] 0).2.2.1 (by decide) (by decide),
   (C8_chunking [] 0).2.2.2 "a" "b" "c" "d" "e",
   (C8_chunking ["a", "b", "c"] 2).2.1 (by decide)⟩

/-- C9: an extraction that yields zero fragments produces the distinct
"no matching entries" outcome — not an error, and no output files — and
that outcome differs from both the error outcome and every file-writing
outcome. -/
theorem C9_no_matches (referenceIDs : List String) (parentNode refNode : String)
    (ts : List Tok) (chunkSize : Int)
    (hb : balancedAux [] ts = true)
    (h : (runTokens referenceIDs parentNode refNode ts initState).results = []) :
    mainOutcome (parseXML ts none referenceIDs parentNode refNode)
        parentNode refNode chunkSize
      = Outcome.noMatches
    ∧ (∀ e, Outcome.noMatches ≠ Outcome.parseError e)
    ∧ (∀ files, Outcome.noMatches ≠ Outcome.wroteFiles files) := by
  refine ⟨?_, fun e h2 => Outcome.noConfusion h2,
    fun files h2 => Outcome.noConfusion h2⟩
  have hos : openStack [] ts = some [] := balanced_openStack ts [] hb
  have hok : parseXML ts none referenceIDs parentNode refNode
      = Except.ok (runTokens referenceIDs parentNode refNode ts initState).results := by
    simp only [parseXML]
    rw [hos]
  rw [hok, h]
  rfl

/-- C9 (witness): the no-match scenario — a `job` element whose
`job_reference` text is `12345` against reference set `{99999}` yields
the `noMatches` outcome. -/
theorem C9_witness :
    mainOutcome
      (parseXML
        [Tok.startElem "job" [], Tok.startElem "job_reference" [],
         Tok.charData "12345", Tok.endElem "job_reference", Tok.endElem "job"]
        none ["99999"] "job" "job_reference")
      "job" "job_reference" 0
      = Outcome.noMatches
    ∧ (∀ e, Outcome.noMatches ≠ Outcome.parseError e)
    ∧ (∀ files, Outcome.noMatches ≠ Outcome.wroteFiles files) :=
  C9_no_matches ["99999"] "job" "job_reference"
    [Tok.startElem "job" [], Tok.startElem "job_reference" [],
     Tok.charData "12345", Tok.endElem "job_reference", Tok.endElem "job"]
    0 (by decide) (by decide)

/-- C10: an open tag named `parentName` seen while a span is already
open restarts the capture at the inner element — the buffer is reset to
the inner open tag, the capture depth moves to the inner depth, nothing
already emitted is lost — and on the nested input
`<job><job></job></job>` at most the inner element is emitted (exactly
when `childName` is empty) while the outer element is never emitted. -/
theorem C10_nested_same_name (referenceIDs : List String)
    (parentNode refNode : String) (attrs1 attrs2 : List Attr)
    (st : ParseState) (h : st.insideParent = true) :
    ((stepToken referenceIDs parentNode refNode st
        (Tok.startElem parentNode attrs2)).buffer
        = emitTok (Tok.startElem parentNode attrs2)
      ∧ (stepToken referenceIDs parentNode refNode st
          (Tok.startElem parentNode attrs2)).captureDepth = st.currentDepth + 1
      ∧ (stepToken referenceIDs parentNode refNode st
          (Tok.startElem parentNode attrs2)).insideParent = true
      ∧ (stepToken referenceIDs parentNode refNode st
          (Tok.startElem parentNode attrs2)).results = st.results)
    ∧ (runTokens referenceIDs parentNode refNode
        [Tok.startElem parentNode attrs1, Tok.startElem parentNode attrs2,
         Tok.endElem parentNode, Tok.endElem parentNode] initState).results
      = (if refNode = ""
         then [emitTok (Tok.startElem parentNode attrs2)
                ++ emitTok (Tok.endElem parentNode)]
         else []) := by
  constructor
  · exact ⟨by simp [stepToken], by simp [stepToken], by simp [stepToken],
      by simp [stepToken]⟩
  · by_cases hrn : refNode = ""
    · simp [runTokens, stepToken, initState, hrn]
    · simp [runTokens, stepToken, initState, hrn]

/-- A concrete mid-span state (after an outer `<job>` open tag) used by
the C10 witness. -/
def nestedWitnessState : ParseState :=
  { currentDepth := 1, buffer := "<job>", captureDepth := 1,
    insideParent := true, matchFound := false, results := ["old"] }

/-- C10 (witness): concrete nested `<job><job></job></job>` run with no
child filter — only the inner element is emitted, and the inner open tag
resets the span state. -/
theorem C10_witness :
    ((stepToken ["12345"] "job" "ref" nestedWitnessState
        (Tok.startElem "job" [])).buffer = emitTok (Tok.startElem "job" [])
      ∧ (stepToken ["12345"] "job" "ref" nestedWitnessState
          (Tok.startElem "job" [])).captureDepth
        = nestedWitnessState.currentDepth + 1
      ∧ (stepToken ["12345"] "job" "ref" nestedWitnessState
          (Tok.startElem "job" [])).insideParent = true
      ∧ (stepToken ["12345"] "job" "ref" nestedWitnessState
          (Tok.startElem "job" [])).results = nestedWitnessState.results)
    ∧ (runTokens ["12345"] "job" "ref"
        [Tok.startElem "job" [], Tok.startElem "job" [],
         Tok.endElem "job", Tok.endElem "job"] initState).results
      = (if ("ref" : String) = ""
         then [emitTok (Tok.startElem "job" []) ++ emitTok (Tok.endElem "job")]
         else []) :=
  C10_nested_same_name ["12345"] "job" "ref" [] [] nestedWitnessState (by decide)

end DsXml
